import Mathlib

/-!
Shallow embedding of `nbandit.py`: an n-armed bandit environment, the
greedy / epsilon-greedy / softmax agent family and the `Testbed`
evaluation loop.  Real-valued quantities are modelled with `ℚ`; the
process-wide random generator is modelled as an explicit stream of
rational draws (`RandSrc`), each call to `random.random` / `random.gauss`
consuming one element.  Fallible operations (Python exceptions such as
`IndexError`) return `Option`.
-/

/-- The global random source: a stream of draw outcomes.  `random.random()`
produces values in `[0,1)`; `random.gauss(0, s)` is modelled as `s * z`
where `z` is the drawn standard-normal outcome. -/
abbrev RandSrc := List ℚ

/-- Consume one draw from the random stream (an exhausted stream yields 0). -/
def draw (r : RandSrc) : ℚ × RandSrc := (r.headD 0, r.tail)

/-- Python list indexing `l[i]`: non-negative indices are positional,
negative indices wrap (`l[-1]` is the last element), anything outside
`[-len(l), len(l))` raises `IndexError`, modelled as `none`. -/
def pyIndex (l : List ℚ) (i : ℤ) : Option ℚ :=
  let j : ℤ := if i < 0 then (l.length : ℤ) + i else i
  if 0 ≤ j ∧ j < (l.length : ℤ) then l.get? j.toNat else none

/-- `Bandit.__init__(rewards, noise_std)` from `nbandit.py` (`rewards` is
the spec's `true_means`; `self.n = len(rewards)` is kept as
`rewards.length`). -/
structure Bandit where
  rewards : List ℚ
  noise_std : ℚ

/-- `Bandit.available_actions`: `range(self.n)`. -/
def Bandit.available_actions (b : Bandit) : List ℕ :=
  List.range b.rewards.length

/-- `Bandit.act(action)`: `self.rewards[action] + random.gauss(0, self.noise_std)`
with the standard-normal outcome `z` supplied explicitly.  The embedding is
a pure function of the bandit and `z`: it returns only the reward and by
construction leaves `rewards` untouched.  Python's `IndexError` is `none`. -/
def Bandit.act (b : Bandit) (action : ℤ) (z : ℚ) : Option ℚ :=
  (pyIndex b.rewards action).map (fun m => m + b.noise_std * z)

/-- `Bandit.act` threading the random stream: the gaussian draw is consumed
only when the indexing succeeds (Python evaluates `self.rewards[action]`
before calling `random.gauss`). -/
def Bandit.actR (b : Bandit) (action : ℤ) (r : RandSrc) : Option (ℚ × RandSrc) :=
  match pyIndex b.rewards action with
  | none => none
  | some m =>
      let p := draw r
      some (m + b.noise_std * p.1, p.2)

/-- `GreedyAgent` state: value estimates `Q` and per-action `action_count`. -/
structure GreedyAgent where
  Q : List ℚ
  action_count : List ℕ

/-- `GreedyAgent.__init__(num_actions)`: `Q = [0]*n`, `action_count = [1]*n`. -/
def GreedyAgent.init (num_actions : ℕ) : GreedyAgent :=
  ⟨List.replicate num_actions 0, List.replicate num_actions 1⟩

/-- The body of `GreedyAgent.act`:
`functools.reduce(lambda a, b: a if self.Q[a] > self.Q[b] else b, range(len(self.Q)))`,
i.e. a left fold over the indices `1, …, n-1` started from index `0`
(`reduce` with no initializer uses the first element `0` as seed). -/
def reduceSelect (Q : List ℚ) : ℕ :=
  (List.range Q.length).tail.foldl
    (fun a b => if Q.getD a 0 > Q.getD b 0 then a else b) 0

def GreedyAgent.act (g : GreedyAgent) : ℕ := reduceSelect g.Q

/-- The shared update rule of `GreedyAgent.learn` (inherited unchanged by
`EpsilonGreedyAgent` and `SoftmaxGreedyAgent`):
`self.Q[action] += 1.0 / self.action_count[action] * (reward - self.Q[action])`
then `self.action_count[action] += 1`. -/
def learnQ (Q : List ℚ) (action_count : List ℕ) (action : ℕ) (reward : ℚ) :
    List ℚ × List ℕ :=
  let q := Q.getD action 0
  let c := action_count.getD action 1
  (Q.set action (q + 1 / (c : ℚ) * (reward - q)),
   action_count.set action (c + 1))

def GreedyAgent.learn (g : GreedyAgent) (action : ℕ) (reward : ℚ) : GreedyAgent :=
  let p := learnQ g.Q g.action_count action reward
  ⟨p.1, p.2⟩

/-- `EpsilonGreedyAgent` state: the inherited `Q` / `action_count` plus
`epsilon` and `num_actions`. -/
structure EpsilonGreedyAgent where
  Q : List ℚ
  action_count : List ℕ
  epsilon : ℚ
  num_actions : ℕ

def EpsilonGreedyAgent.init (num_actions : ℕ) (epsilon : ℚ) : EpsilonGreedyAgent :=
  ⟨List.replicate num_actions 0, List.replicate num_actions 1, epsilon, num_actions⟩

/-- Outcome of `random.randint(0, n - 1)` derived from one uniform draw
`v ∈ [0,1)` of the underlying generator. -/
def randint0 (v : ℚ) (n : ℕ) : ℕ := min (Int.toNat ⌊v * (n : ℚ)⌋) (n - 1)

/-- `EpsilonGreedyAgent.act`: `if random.random() < self.epsilon:` return
`random.randint(0, self.num_actions - 1)`, `else` delegate to the greedy
rule of the superclass. -/
def EpsilonGreedyAgent.act (g : EpsilonGreedyAgent) (r : RandSrc) : ℕ × RandSrc :=
  let p := draw r
  if p.1 < g.epsilon then
    let p2 := draw p.2
    (randint0 p2.1 g.num_actions, p2.2)
  else
    (reduceSelect g.Q, p.2)

/-- `learn` is inherited from `GreedyAgent` unchanged. -/
def EpsilonGreedyAgent.learn (g : EpsilonGreedyAgent) (action : ℕ) (reward : ℚ) :
    EpsilonGreedyAgent :=
  let p := learnQ g.Q g.action_count action reward
  ⟨p.1, p.2, g.epsilon, g.num_actions⟩

/-- `SoftmaxGreedyAgent` state: the inherited `Q` / `action_count` plus
`temperature` and `num_actions`. -/
structure SoftmaxGreedyAgent where
  Q : List ℚ
  action_count : List ℕ
  temperature : ℚ
  num_actions : ℕ

def SoftmaxGreedyAgent.init (num_actions : ℕ) (temperature : ℚ) :
    SoftmaxGreedyAgent :=
  ⟨List.replicate num_actions 0, List.replicate num_actions 1, temperature,
   num_actions⟩

/-- The sequential probability-mass scan of `SoftmaxGreedyAgent.act`:
`for i, q in enumerate(self.Q): p = exp(q/T)/base; if r < p: return i; r -= p`.
Falling off the end of the `for` loop makes the Python method return
`None`, modelled as `none`. -/
def softmaxScan : List ℚ → ℚ → ℕ → Option ℕ
  | [], _, _ => none
  | p :: ps, r, i => if r < p then some i else softmaxScan ps (r - p) (i + 1)

/-- `SoftmaxGreedyAgent.act`.  `math.exp` is transcendental, hence not a
rational function; it is supplied as the parameter `mexp`, and statements
that need it assume only properties true of the exponential (positivity,
`mexp 0 = 1`). -/
def SoftmaxGreedyAgent.act (g : SoftmaxGreedyAgent) (mexp : ℚ → ℚ) (r : RandSrc) :
    Option ℕ × RandSrc :=
  let base := (g.Q.map (fun q => mexp (q / g.temperature))).sum
  let p := draw r
  (softmaxScan (g.Q.map (fun q => mexp (q / g.temperature) / base)) p.1 0, p.2)

/-- `learn` is inherited from `GreedyAgent` unchanged. -/
def SoftmaxGreedyAgent.learn (g : SoftmaxGreedyAgent) (action : ℕ) (reward : ℚ) :
    SoftmaxGreedyAgent :=
  let p := learnQ g.Q g.action_count action reward
  ⟨p.1, p.2, g.temperature, g.num_actions⟩

/-- The duck-typed agent interface `Testbed.evaluate` relies on: an
`act` that may consume randomness and a `learn` update. -/
structure AgentOps (σ : Type) where
  act : σ → RandSrc → ℕ × RandSrc
  learn : σ → ℕ → ℚ → σ

/-- `GreedyAgent` seen through the duck-typed interface (its `act` reads no
randomness). -/
def greedyOps : AgentOps GreedyAgent :=
  ⟨fun g r => (g.act, r), GreedyAgent.learn⟩

/-- `EpsilonGreedyAgent` seen through the duck-typed interface. -/
def epsilonGreedyOps : AgentOps EpsilonGreedyAgent :=
  ⟨EpsilonGreedyAgent.act, EpsilonGreedyAgent.learn⟩

/-- `Testbed.__init__(environment_fn, agent_fns)`: the environment factory
may consume randomness (the program's factory draws the ten bandit means);
each agent factory receives `len(environment.available_actions())`. -/
structure Testbed (σ : Type) where
  environment_fn : RandSrc → Bandit × RandSrc
  agent_fns : List (ℕ → σ)
  ops : AgentOps σ

/-- The body of the inner agent loop of `Testbed.evaluate` for one agent at
step `step` of episode `e`:
`action = agent.act(); reward = environment.act(action); agent.learn(action, reward)`
followed by the running-average update
`self.rewards[i][step] += (1.0 / (episode + 1)) * (reward - self.rewards[i][step])`.
`trace` is a ghost output recording the rewards this agent received this
episode; it never feeds back into the computation. -/
def agentStep {σ : Type} (ops : AgentOps σ) (env : Bandit) (e step : ℕ)
    (ag : σ) (row trace : List ℚ) (r : RandSrc) :
    Option (σ × List ℚ × List ℚ × RandSrc) :=
  let p := ops.act ag r
  match Bandit.actR env (p.1 : ℤ) p.2 with
  | none => none
  | some (reward, r2) =>
      let ag2 := ops.learn ag p.1 reward
      let old := row.getD step 0
      let row2 := row.set step (old + 1 / ((e : ℚ) + 1) * (reward - old))
      some (ag2, row2, trace ++ [reward], r2)

/-- `for i, agent in enumerate(agents):` — each agent acts in order at a
fixed step, carrying `(agent, rewards row, reward trace)`. -/
def stepAgents {σ : Type} (ops : AgentOps σ) (env : Bandit) (e step : ℕ) :
    List (σ × List ℚ × List ℚ) → RandSrc →
    Option (List (σ × List ℚ × List ℚ) × RandSrc)
  | [], r => some ([], r)
  | (ag, row, tr) :: rest, r =>
    match agentStep ops env e step ag row tr r with
    | none => none
    | some (ag2, row2, tr2, r2) =>
      match stepAgents ops env e step rest r2 with
      | none => none
      | some (rest2, r3) => some ((ag2, row2, tr2) :: rest2, r3)

/-- `for step in xrange(episode_length):` — `k` steps remain, `step` is the
current index. -/
def runSteps {σ : Type} (ops : AgentOps σ) (env : Bandit) (e : ℕ) :
    ℕ → ℕ → List (σ × List ℚ × List ℚ) → RandSrc →
    Option (List (σ × List ℚ × List ℚ) × RandSrc)
  | 0, _, prs, r => some (prs, r)
  | k + 1, step, prs, r =>
    match stepAgents ops env e step prs r with
    | none => none
    | some (prs2, r2) => runSteps ops env e k (step + 1) prs2 r2

/-- `for episode in xrange(num_episodes):` — a fresh environment and fresh
agents per episode; `rows` is the persistent `self.rewards` accumulator and
`traces` the ghost reward record of the most recent episode. -/
def runEpisodes {σ : Type} (tb : Testbed σ) (episode_length : ℕ) :
    ℕ → ℕ → List (List ℚ) → List (List ℚ) → RandSrc →
    Option (List (List ℚ) × List (List ℚ) × RandSrc)
  | 0, _, rows, traces, r => some (rows, traces, r)
  | k + 1, e, rows, _, r =>
    let pe := tb.environment_fn r
    let agents := tb.agent_fns.map (fun f => f pe.1.rewards.length)
    let start := agents.zip (rows.map (fun row => (row, ([] : List ℚ))))
    match runSteps tb.ops pe.1 e episode_length 0 start pe.2 with
    | none => none
    | some (prs, r2) =>
        runEpisodes tb episode_length k (e + 1)
          (prs.map (fun t => t.2.1)) (prs.map (fun t => t.2.2)) r2

/-- `Testbed.evaluate(num_episodes, episode_length)` with the
`show_plot`/`save_animation` accumulator branch active (the program itself
calls `evaluate(..., show_plot=True)`); plotting, console printing and
file output are external collaborators outside the model.  Returns the
final cross-episode average array `rewards[agent][step]`, or `none` if an
environment call raised `IndexError`. -/
def Testbed.evaluate {σ : Type} (tb : Testbed σ)
    (num_episodes episode_length : ℕ) (r : RandSrc) : Option (List (List ℚ)) :=
  let rows := tb.agent_fns.map (fun _ => List.replicate episode_length (0 : ℚ))
  (runEpisodes tb episode_length num_episodes 0 rows [] r).map (fun t => t.1)

/-- `Testbed.evaluate` also exposing the ghost record of the rewards each
agent received during the final episode. -/
def Testbed.evaluateT {σ : Type} (tb : Testbed σ)
    (num_episodes episode_length : ℕ) (r : RandSrc) :
    Option (List (List ℚ) × List (List ℚ)) :=
  let rows := tb.agent_fns.map (fun _ => List.replicate episode_length (0 : ℚ))
  (runEpisodes tb episode_length num_episodes 0 rows [] r).map
    (fun t => (t.1, t.2.1))

/-! ### Basic lemmas about the shared update rule -/

theorem getD_set_self {α : Type} (l : List α) (a : ℕ) (x d : α)
    (h : a < l.length) : (l.set a x).getD a d = x := by
  simp [List.getD_eq_getElem?_getD, List.getElem?_set_self, h]

theorem getD_set_ne {α : Type} (l : List α) (a b : ℕ) (x d : α)
    (h : a ≠ b) : (l.set a x).getD b d = l.getD b d := by
  simp [List.getD_eq_getElem?_getD, List.getElem?_set_ne h]

theorem learn_Q_length (g : GreedyAgent) (a : ℕ) (w : ℚ) :
    (g.learn a w).Q.length = g.Q.length := by
  simp [GreedyAgent.learn, learnQ]

theorem learn_count_length (g : GreedyAgent) (a : ℕ) (w : ℚ) :
    (g.learn a w).action_count.length = g.action_count.length := by
  simp [GreedyAgent.learn, learnQ]

theorem learn_Q_getD_self (g : GreedyAgent) (a : ℕ) (w : ℚ)
    (h : a < g.Q.length) :
    (g.learn a w).Q.getD a 0 =
      g.Q.getD a 0 +
        1 / (g.action_count.getD a 1 : ℚ) * (w - g.Q.getD a 0) := by
  simp only [GreedyAgent.learn, learnQ]
  exact getD_set_self _ _ _ _ h

theorem learn_count_getD_self (g : GreedyAgent) (a : ℕ) (w : ℚ)
    (h : a < g.action_count.length) :
    (g.learn a w).action_count.getD a 1 = g.action_count.getD a 1 + 1 := by
  simp only [GreedyAgent.learn, learnQ]
  exact getD_set_self _ _ _ _ h

/-- `GreedyAgent.learn` applied to a whole sequence of rewards for one
fixed action, in order, with no intervening updates to other state. -/
def feed (g : GreedyAgent) (a : ℕ) (rs : List ℚ) : GreedyAgent :=
  rs.foldl (fun g r => g.learn a r) g

theorem feed_mean_aux (a : ℕ) (rs : List ℚ) :
    ∀ (g : GreedyAgent) (c : ℕ), a < g.Q.length → a < g.action_count.length →
      g.action_count.getD a 1 = c + 1 →
      (feed g a rs).Q.getD a 0 * ((c : ℚ) + rs.length) =
        g.Q.getD a 0 * c + rs.sum := by
  induction rs with
  | nil => intro g c _ _ _; simp [feed]
  | cons r rs ih =>
    intro g c h1 h2 h3
    have hQl : a < (g.learn a r).Q.length := by rw [learn_Q_length]; exact h1
    have hCl : a < (g.learn a r).action_count.length := by
      rw [learn_count_length]; exact h2
    have hc : (g.learn a r).action_count.getD a 1 = (c + 1) + 1 := by
      rw [learn_count_getD_self g a r h2, h3]
    have key := ih (g.learn a r) (c + 1) hQl hCl hc
    have hfeed : feed g a (r :: rs) = feed (g.learn a r) a rs := rfl
    have hq : (g.learn a r).Q.getD a 0 =
        g.Q.getD a 0 + 1 / ((c : ℚ) + 1) * (r - g.Q.getD a 0) := by
      rw [learn_Q_getD_self g a r h1, h3]
      push_cast
      ring
    have hne : ((c : ℚ) + 1) ≠ 0 := by positivity
    rw [hfeed, List.length_cons, List.sum_cons]
    push_cast
    have hcast : (c : ℚ) + ((rs.length : ℚ) + 1) = ((c : ℚ) + 1) + rs.length := by
      ring
    push_cast at key
    rw [hcast, key, hq]
    field_simp
    ring

/-- Claim C1: feeding a `GreedyAgent` the rewards `r_1..r_k` (`k ≥ 1`) for
one action `a` with no intervening updates to `a` leaves `Q[a]` equal to the
arithmetic mean `(r_1 + ⋯ + r_k) / k`; in particular (`k = 1`) the first
observed reward for an action becomes its estimate exactly. -/
theorem greedy_learn_mean (n a : ℕ) (rs : List ℚ) (ha : a < n) (hk : rs ≠ []) :
    (feed (GreedyAgent.init n) a rs).Q.getD a 0 = rs.sum / rs.length := by
  have h1 : a < (GreedyAgent.init n).Q.length := by
    simpa [GreedyAgent.init] using ha
  have h2 : a < (GreedyAgent.init n).action_count.length := by
    simpa [GreedyAgent.init] using ha
  have h3 : (GreedyAgent.init n).action_count.getD a 1 = 0 + 1 := by
    simp [GreedyAgent.init, List.getD_eq_getElem?_getD, List.getElem?_replicate, ha]
  have key := feed_mean_aux a rs (GreedyAgent.init n) 0 h1 h2 h3
  have hq0 : (GreedyAgent.init n).Q.getD a 0 = 0 := by
    simp [GreedyAgent.init, List.getD_eq_getElem?_getD, List.getElem?_replicate, ha]
  rw [hq0] at key
  have hlen : (rs.length : ℚ) ≠ 0 := by
    have hne : rs.length ≠ 0 := by simpa [List.length_eq_zero] using hk
    exact_mod_cast hne
  rw [eq_div_iff hlen]
  simpa using key

/-- Concrete instance of `greedy_learn_mean`: rewards 3 then 5 for the only
action of a one-armed agent give the estimate 4. -/
theorem greedy_learn_mean_witness :
    (feed (GreedyAgent.init 1) 0 [(3 : ℚ), 5]).Q.getD 0 0 = 4 := by
  have h := greedy_learn_mean 1 0 [(3 : ℚ), 5] (by decide) (by decide)
  norm_num at h
  exact h

/-! ### The greedy selection rule -/

/-- Proof device: the same fold as `reduceSelect` but over all of
`range n` (the seed `0` makes the two agree). -/
def rangeFoldSel (Q : List ℚ) (n : ℕ) : ℕ :=
  (List.range n).foldl (fun a b => if Q.getD a 0 > Q.getD b 0 then a else b) 0

theorem reduceSelect_eq_rangeFoldSel (Q : List ℚ) :
    reduceSelect Q = rangeFoldSel Q Q.length := by
  unfold reduceSelect rangeFoldSel
  cases h : Q.length with
  | zero => simp
  | succ n =>
    rw [List.range_succ_eq_map]
    simp only [List.tail_cons, List.foldl_cons, gt_iff_lt, lt_self_iff_false,
      if_false, ite_self]

theorem rangeFoldSel_step (Q : List ℚ) (n : ℕ) :
    rangeFoldSel Q (n + 1) =
      if Q.getD (rangeFoldSel Q n) 0 > Q.getD n 0 then rangeFoldSel Q n
      else n := by
  unfold rangeFoldSel
  rw [List.range_succ, List.foldl_append]
  rfl

theorem rangeFoldSel_spec (Q : List ℚ) :
    ∀ n, 1 ≤ n →
      rangeFoldSel Q n < n ∧
      (∀ i, i < n → Q.getD i 0 ≤ Q.getD (rangeFoldSel Q n) 0) ∧
      (∀ i, rangeFoldSel Q n < i → i < n →
        Q.getD i 0 < Q.getD (rangeFoldSel Q n) 0) := by
  intro n
  induction n with
  | zero => intro h; exact absurd h (by omega)
  | succ n ih =>
    intro _
    by_cases hn : 1 ≤ n
    · obtain ⟨hlt, hmax, hlast⟩ := ih hn
      rw [rangeFoldSel_step]
      by_cases hgt : Q.getD (rangeFoldSel Q n) 0 > Q.getD n 0
      · rw [if_pos hgt]
        refine ⟨by omega, ?_, ?_⟩
        · intro i hi
          rcases Nat.lt_succ_iff_lt_or_eq.mp hi with h | h
          · exact hmax i h
          · subst h; exact le_of_lt hgt
        · intro i h1 h2
          rcases Nat.lt_succ_iff_lt_or_eq.mp h2 with h | h
          · exact hlast i h1 h
          · subst h; exact hgt
      · rw [if_neg hgt]
        push_neg at hgt
        refine ⟨Nat.lt_succ_self n, ?_, ?_⟩
        · intro i hi
          rcases Nat.lt_succ_iff_lt_or_eq.mp hi with h | h
          · exact le_trans (hmax i h) hgt
          · subst h; exact le_refl _
        · intro i h1 h2
          omega
    · have hn0 : n = 0 := by omega
      subst hn0
      have h1 : rangeFoldSel Q (0 + 1) = 0 := by
        unfold rangeFoldSel
        simp [List.range_succ]
      refine ⟨by omega, ?_, ?_⟩
      · intro i hi
        have : i = 0 := by omega
        subst this
        rw [h1]
      · intro i hi1 hi2
        rw [h1] at hi1
        omega

/-- Claim C2: `GreedyAgent.act` returns the LAST index attaining the
maximal `Q` value — the returned index is in range, its value dominates
every entry, and every strictly later in-range entry is strictly smaller
(a later index wins a tie); in particular, for every `n ≥ 1`, an agent
whose `Q` entries are all equal (e.g. the freshly initialized agent)
returns index `n - 1`. -/
theorem greedy_act_last_max :
    (∀ g : GreedyAgent, 1 ≤ g.Q.length →
      g.act < g.Q.length ∧
      (∀ i, i < g.Q.length → g.Q.getD i 0 ≤ g.Q.getD g.act 0) ∧
      (∀ i, g.act < i → i < g.Q.length →
        g.Q.getD i 0 < g.Q.getD g.act 0)) ∧
    (∀ n : ℕ, 1 ≤ n → (GreedyAgent.init n).act = n - 1) := by
  have hact : ∀ g : GreedyAgent, g.act = rangeFoldSel g.Q g.Q.length :=
    fun g => reduceSelect_eq_rangeFoldSel g.Q
  have main : ∀ g : GreedyAgent, 1 ≤ g.Q.length →
      g.act < g.Q.length ∧
      (∀ i, i < g.Q.length → g.Q.getD i 0 ≤ g.Q.getD g.act 0) ∧
      (∀ i, g.act < i → i < g.Q.length →
        g.Q.getD i 0 < g.Q.getD g.act 0) := by
    intro g h
    rw [hact g]
    exact rangeFoldSel_spec g.Q g.Q.length h
  refine ⟨main, ?_⟩
  intro n hn
  have hlen : (GreedyAgent.init n).Q.length = n := by
    simp [GreedyAgent.init]
  have hQ : ∀ i, (GreedyAgent.init n).Q.getD i 0 = 0 := by
    intro i
    by_cases hi : i < n <;>
      simp [GreedyAgent.init, List.getD_eq_getElem?_getD,
        List.getElem?_replicate, hi]
  obtain ⟨hlt, _, hlast⟩ := main (GreedyAgent.init n) (by rw [hlen]; exact hn)
  rw [hlen] at hlt hlast
  by_contra hne
  have hsmall : (GreedyAgent.init n).act < n - 1 := by omega
  have := hlast (n - 1) hsmall (by omega)
  rw [hQ, hQ] at this
  exact lt_irrefl 0 this

/-- Concrete instances of `greedy_act_last_max`: a three-armed agent with
`Q = [1, 7, 7]` picks index 2 (later index wins the tie), and the freshly
initialized three-armed agent (all `Q` equal) picks index 2. -/
theorem greedy_act_last_max_witness :
    (GreedyAgent.mk [(1 : ℚ), 7, 7] [1, 1, 1]).act < 3 ∧
    (GreedyAgent.init 3).act = 2 := by
  constructor
  · exact (greedy_act_last_max.1 (GreedyAgent.mk [(1 : ℚ), 7, 7] [1, 1, 1])
      (by decide)).1
  · exact greedy_act_last_max.2 3 (by decide)

/-! ### The softmax scan and its fall-through behaviour -/

theorem softmaxScan_exhaust (ps : List ℚ) :
    ∀ (r : ℚ) (i : ℕ), (∀ p ∈ ps, 0 ≤ p) → ps.sum ≤ r →
      softmaxScan ps r i = none := by
  induction ps with
  | nil => intro r i _ _; rfl
  | cons p ps ih =>
    intro r i hpos hsum
    rw [List.sum_cons] at hsum
    have hps : ∀ q ∈ ps, 0 ≤ q := fun q hq => hpos q (List.mem_cons_of_mem p hq)
    have hsum0 : 0 ≤ ps.sum := List.sum_nonneg hps
    have hple : p ≤ r := by linarith
    simp only [softmaxScan, not_lt.mpr hple, if_false]
    exact ih (r - p) (i + 1) hps (by linarith)

/-- Claim C3 (amended): when the sequential probability-mass scan of
`SoftmaxGreedyAgent.act` exhausts all actions without selecting one (the
residual `r` at least the remaining mass), the selection returns NO action
(the Python `for` loop falls through and the method returns `None`); there
is no fallback to the last index.  Second conjunct: the behaviour through
`SoftmaxGreedyAgent.act` itself on a freshly initialized agent, whose exact
probabilities are `1/n` each, whenever the drawn residual is not consumed. -/
theorem softmax_scan_exhaust_none :
    (∀ (ps : List ℚ) (r : ℚ) (i : ℕ), (∀ p ∈ ps, 0 ≤ p) → ps.sum ≤ r →
      softmaxScan ps r i = none) ∧
    (∀ (n : ℕ) (T u : ℚ) (mexp : ℚ → ℚ) (rest : RandSrc), 0 < n →
      (∀ x, 0 < mexp x) → 1 ≤ u →
      (SoftmaxGreedyAgent.init n T).act mexp (u :: rest) = (none, rest)) := by
  constructor
  · intro ps r i hpos hsum
    exact softmaxScan_exhaust ps r i hpos hsum
  · intro n T u mexp rest hn hpos hu
    have hw : 0 < mexp (0 / T) := hpos _
    unfold SoftmaxGreedyAgent.act SoftmaxGreedyAgent.init
    simp only [List.map_replicate, List.sum_replicate, nsmul_eq_mul, draw,
      List.headD_cons, List.tail_cons]
    have hbase : ((n : ℚ) * mexp (0 / T)) ≠ 0 := by positivity
    have hscan : softmaxScan
        (List.replicate n (mexp (0 / T) / ((n : ℚ) * mexp (0 / T)))) u 0 =
        none := by
      apply softmaxScan_exhaust
      · intro p hp
        rw [List.eq_of_mem_replicate hp]
        positivity
      · rw [List.sum_replicate, nsmul_eq_mul]
        have hsum : (n : ℚ) * (mexp (0 / T) / ((n : ℚ) * mexp (0 / T))) = 1 := by
          rw [show (n : ℚ) * (mexp (0 / T) / ((n : ℚ) * mexp (0 / T))) =
            ((n : ℚ) * mexp (0 / T)) / ((n : ℚ) * mexp (0 / T)) from by ring,
            div_self hbase]
        rw [hsum]
        exact hu
    rw [hscan]

/-- The claim as stated is false at a concrete input: with two actions and
scan probabilities `49/100` each (the floating-point residual scenario:
the masses do not absorb the drawn `r = 99/100`), the scan exhausts both
actions and yields `none`, not the last index `1`. -/
theorem softmax_scan_fallback_cex :
    softmaxScan [(49 : ℚ)/100, 49/100] (99/100) 0 = none ∧
    ¬ softmaxScan [(49 : ℚ)/100, 49/100] (99/100) 0 = some 1 := by
  have h : softmaxScan [(49 : ℚ)/100, 49/100] (99/100) 0 = none := by
    simp only [softmaxScan]
    norm_num
  exact ⟨h, by rw [h]; simp⟩

/-- Concrete instance of `softmax_scan_exhaust_none`: probabilities
`[1/2, 1/2]` with unconsumed residual `1` yield `none`, and a fresh
two-armed softmax agent at temperature 1 whose uniform draw is `1` selects
no action. -/
theorem softmax_scan_exhaust_none_witness :
    softmaxScan [(1 : ℚ)/2, 1/2] 1 0 = none ∧
    (SoftmaxGreedyAgent.init 2 1).act (fun _ => 1) [1] = (none, []) := by
  constructor
  · apply softmax_scan_exhaust_none.1
    · intro p hp
      simp only [List.mem_cons, List.mem_singleton] at hp
      rcases hp with h | h | h <;> first | (rw [h]; norm_num) | cases h
    · norm_num
  · exact softmax_scan_exhaust_none.2 2 1 1 (fun _ => 1) [] (by norm_num)
      (fun _ => by norm_num) (by norm_num)

/-! ### Bandit.act range behaviour -/

/-- Claim C5 (amended): `Bandit.act` fails (Python `IndexError`, modelled
`none`) exactly for `action ≥ n` or `action < -n`; a negative action in
`[-n, 0)` does NOT fail — Python list indexing wraps, returning
`true_means[n + action] + noise`. -/
theorem bandit_act_range :
    (∀ (b : Bandit) (a : ℤ) (z : ℚ),
      ((b.rewards.length : ℤ) ≤ a ∨ a < -(b.rewards.length : ℤ)) →
      b.act a z = none) ∧
    (∀ (b : Bandit) (a : ℤ) (z : ℚ),
      -(b.rewards.length : ℤ) ≤ a → a < 0 →
      b.act a z =
        some (b.rewards.getD ((b.rewards.length : ℤ) + a).toNat 0 +
          b.noise_std * z)) := by
  constructor
  · intro b a z h
    unfold Bandit.act pyIndex
    rcases h with h | h
    · have ha : ¬ a < 0 := by omega
      have hcond : ¬ (0 ≤ a ∧ a < (b.rewards.length : ℤ)) := by omega
      simp only [if_neg ha, if_neg hcond, Option.map_none']
    · have ha : a < 0 := by omega
      have hcond : ¬ (0 ≤ (b.rewards.length : ℤ) + a ∧
          (b.rewards.length : ℤ) + a < (b.rewards.length : ℤ)) := by omega
      simp only [if_pos ha, if_neg hcond, Option.map_none']
  · intro b a z hge hlt
    have hn : 0 ≤ (b.rewards.length : ℤ) + a := by omega
    have hlt2 : (b.rewards.length : ℤ) + a < (b.rewards.length : ℤ) := by omega
    have hj : ((b.rewards.length : ℤ) + a).toNat < b.rewards.length := by omega
    unfold Bandit.act pyIndex
    simp only [if_pos hlt, if_pos (And.intro hn hlt2)]
    rw [List.get?_eq_getElem?, List.getElem?_eq_getElem hj, Option.map_some']
    rw [List.getD_eq_getElem?_getD, List.getElem?_eq_getElem hj]
    rfl

/-- The claim as stated is false at a concrete input: the negative action
`-1` is outside `[0, n)` for the one-armed bandit with true mean 5 and zero
noise, yet `act` returns the reward 5 instead of failing. -/
theorem bandit_act_neg_index_cex :
    (Bandit.mk [(5 : ℚ)] 0).act (-1) 0 = some 5 ∧
    ¬ (Bandit.mk [(5 : ℚ)] 0).act (-1) 0 = none := by
  have h : (Bandit.mk [(5 : ℚ)] 0).act (-1) 0 = some 5 := by
    unfold Bandit.act pyIndex
    norm_num
  exact ⟨h, by rw [h]; simp⟩

/-- Concrete instances of `bandit_act_range`: action 3 on a two-armed
bandit fails, and action `-1` wraps to the last arm. -/
theorem bandit_act_range_witness :
    (Bandit.mk [(3 : ℚ), 7] 0).act 3 0 = none ∧
    (Bandit.mk [(3 : ℚ), 7] 0).act (-1) 0 =
      some ((Bandit.mk [(3 : ℚ), 7] 0).rewards.getD
        (((Bandit.mk [(3 : ℚ), 7] 0).rewards.length : ℤ) + (-1)).toNat 0 +
        (Bandit.mk [(3 : ℚ), 7] 0).noise_std * 0) := by
  constructor
  · exact bandit_act_range.1 (Bandit.mk [(3 : ℚ), 7] 0) 3 0 (by norm_num)
  · exact bandit_act_range.2 (Bandit.mk [(3 : ℚ), 7] 0) (-1) 0 (by norm_num)
      (by norm_num)

/-- Claim C8: for a `Bandit` with `noise_std = 0` and a valid action
`a ∈ [0, n)`, every `act(a)` call returns exactly `true_means[a]`
(`random.gauss(0, 0) = 0` adds nothing), for every sampled outcome `z`;
the embedding of `act` is a pure function that leaves `rewards` untouched
by construction. -/
theorem bandit_act_zero_noise (b : Bandit) (a : ℕ) (z : ℚ)
    (h0 : b.noise_std = 0) (ha : a < b.rewards.length) :
    b.act (a : ℤ) z = some (b.rewards.getD a 0) := by
  have hnn : ¬ ((a : ℤ) < 0) := by omega
  have hcond : 0 ≤ (a : ℤ) ∧ (a : ℤ) < (b.rewards.length : ℤ) := by omega
  have hj : ((a : ℤ)).toNat < b.rewards.length := by omega
  unfold Bandit.act pyIndex
  simp only [if_neg hnn, if_pos hcond]
  rw [List.get?_eq_getElem?, List.getElem?_eq_getElem hj, Option.map_some']
  simp only [Int.toNat_natCast]
  rw [List.getD_eq_getElem?_getD, List.getElem?_eq_getElem ha]
  simp [h0]

/-- Concrete instance of `bandit_act_zero_noise`: the zero-noise two-armed
bandit with true means `[3, 7]` returns exactly 7 for action 1, whatever
the sampled outcome (here 11). -/
theorem bandit_act_zero_noise_witness :
    (Bandit.mk [(3 : ℚ), 7] 0).act 1 11 = some 7 := by
  have h := bandit_act_zero_noise (Bandit.mk [(3 : ℚ), 7] 0) 1 11 rfl
    (by norm_num)
  simpa using h

/-! ### Lifetime invariants and frame conditions of the agent family -/

/-- The spec's agent-state invariant: `len(Q) == len(count) == n` and every
count entry is a positive integer. -/
def AgentStateInv (n : ℕ) (Q : List ℚ) (count : List ℕ) : Prop :=
  Q.length = n ∧ count.length = n ∧ ∀ c ∈ count, 1 ≤ c

theorem learnQ_inv (n : ℕ) (Q : List ℚ) (count : List ℕ) (a : ℕ) (w : ℚ)
    (h : AgentStateInv n Q count) :
    AgentStateInv n (learnQ Q count a w).1 (learnQ Q count a w).2 := by
  obtain ⟨h1, h2, h3⟩ := h
  refine ⟨by simp [learnQ, h1], by simp [learnQ, h2], ?_⟩
  intro c hc
  simp only [learnQ] at hc
  rcases List.mem_or_eq_of_mem_set hc with h | h
  · exact h3 c h
  · omega

theorem replicate_inv (n : ℕ) :
    AgentStateInv n (List.replicate n (0 : ℚ)) (List.replicate n 1) := by
  refine ⟨List.length_replicate n 0, List.length_replicate n 1, ?_⟩
  intro c hc
  rw [List.eq_of_mem_replicate hc]

/-- Claim C9: every agent in the family (greedy, epsilon-greedy, softmax)
constructed with `n` actions satisfies `len(Q) == len(count) == n`, with
every `count` entry a positive integer (`≥ 1`), both initially (counts
start at 1 to avoid division by zero) and after every `learn(action,
reward)` — `learn` preserves the invariant for arbitrary action and
reward. -/
theorem agent_family_invariant :
    (∀ n : ℕ, AgentStateInv n (GreedyAgent.init n).Q
      (GreedyAgent.init n).action_count) ∧
    (∀ (n : ℕ) (e : ℚ), AgentStateInv n (EpsilonGreedyAgent.init n e).Q
      (EpsilonGreedyAgent.init n e).action_count) ∧
    (∀ (n : ℕ) (T : ℚ), AgentStateInv n (SoftmaxGreedyAgent.init n T).Q
      (SoftmaxGreedyAgent.init n T).action_count) ∧
    (∀ (n : ℕ) (g : GreedyAgent) (a : ℕ) (w : ℚ),
      AgentStateInv n g.Q g.action_count →
      AgentStateInv n (g.learn a w).Q (g.learn a w).action_count) ∧
    (∀ (n : ℕ) (g : EpsilonGreedyAgent) (a : ℕ) (w : ℚ),
      AgentStateInv n g.Q g.action_count →
      AgentStateInv n (g.learn a w).Q (g.learn a w).action_count) ∧
    (∀ (n : ℕ) (g : SoftmaxGreedyAgent) (a : ℕ) (w : ℚ),
      AgentStateInv n g.Q g.action_count →
      AgentStateInv n (g.learn a w).Q (g.learn a w).action_count) := by
  refine ⟨fun n => replicate_inv n, fun n _ => replicate_inv n,
    fun n _ => replicate_inv n, ?_, ?_, ?_⟩
  · intro n g a w h
    exact learnQ_inv n g.Q g.action_count a w h
  · intro n g a w h
    exact learnQ_inv n g.Q g.action_count a w h
  · intro n g a w h
    exact learnQ_inv n g.Q g.action_count a w h

/-- Concrete instance of `agent_family_invariant`: a two-armed greedy agent
keeps the invariant after learning reward 5 for action 0. -/
theorem agent_family_invariant_witness :
    AgentStateInv 2 ((GreedyAgent.init 2).learn 0 5).Q
      ((GreedyAgent.init 2).learn 0 5).action_count :=
  agent_family_invariant.2.2.2.1 2 (GreedyAgent.init 2) 0 5
    (agent_family_invariant.1 2)

theorem learnQ_frame (Q : List ℚ) (count : List ℕ) (a : ℕ) (w : ℚ) (j : ℕ)
    (hj : j ≠ a) :
    (learnQ Q count a w).1.getD j 0 = Q.getD j 0 ∧
    (learnQ Q count a w).2.getD j 1 = count.getD j 1 :=
  ⟨getD_set_ne _ _ _ _ _ (Ne.symm hj), getD_set_ne _ _ _ _ _ (Ne.symm hj)⟩

/-- Claim C10: `learn(action, reward)` touches only the two entries
`Q[action]` and `count[action]`: every other index `j ≠ action` keeps its
`Q[j]` and `count[j]`, and the remaining agent fields (`epsilon`,
`temperature`, `num_actions` where present) are unchanged — for all three
variants, which inherit the same update. -/
theorem greedy_learn_frame :
    (∀ (g : GreedyAgent) (a j : ℕ) (w : ℚ), j ≠ a →
      (g.learn a w).Q.getD j 0 = g.Q.getD j 0 ∧
      (g.learn a w).action_count.getD j 1 = g.action_count.getD j 1) ∧
    (∀ (g : EpsilonGreedyAgent) (a j : ℕ) (w : ℚ),
      (g.learn a w).epsilon = g.epsilon ∧
      (g.learn a w).num_actions = g.num_actions ∧
      (j ≠ a → (g.learn a w).Q.getD j 0 = g.Q.getD j 0 ∧
        (g.learn a w).action_count.getD j 1 = g.action_count.getD j 1)) ∧
    (∀ (g : SoftmaxGreedyAgent) (a j : ℕ) (w : ℚ),
      (g.learn a w).temperature = g.temperature ∧
      (g.learn a w).num_actions = g.num_actions ∧
      (j ≠ a → (g.learn a w).Q.getD j 0 = g.Q.getD j 0 ∧
        (g.learn a w).action_count.getD j 1 = g.action_count.getD j 1)) := by
  refine ⟨?_, ?_, ?_⟩
  · intro g a j w hj
    exact learnQ_frame g.Q g.action_count a w j hj
  · intro g a j w
    exact ⟨rfl, rfl, fun hj => learnQ_frame g.Q g.action_count a w j hj⟩
  · intro g a j w
    exact ⟨rfl, rfl, fun hj => learnQ_frame g.Q g.action_count a w j hj⟩

/-- Concrete instance of `greedy_learn_frame`: learning reward 9 for
action 0 of a two-armed agent leaves index 1 untouched. -/
theorem greedy_learn_frame_witness :
    ((GreedyAgent.init 2).learn 0 9).Q.getD 1 0 =
      (GreedyAgent.init 2).Q.getD 1 0 ∧
    ((GreedyAgent.init 2).learn 0 9).action_count.getD 1 1 =
      (GreedyAgent.init 2).action_count.getD 1 1 :=
  greedy_learn_frame.1 (GreedyAgent.init 2) 0 1 9 (by decide)

/-! ### EpsilonGreedyAgent with epsilon = 0 versus GreedyAgent -/

/-- A `GreedyAgent` interacting for `k` steps (current step index `t`) with
a reward oracle `rewardF step action`: per step, `act`, receive the
reward, `learn`.  Returns the actions chosen and the final state. -/
def greedyRun (rewardF : ℕ → ℕ → ℚ) : ℕ → ℕ → GreedyAgent →
    List ℕ × GreedyAgent
  | 0, _, g => ([], g)
  | k + 1, t, g =>
    let a := g.act
    let g2 := g.learn a (rewardF t a)
    let res := greedyRun rewardF k (t + 1) g2
    (a :: res.1, res.2)

/-- The same interaction loop for an `EpsilonGreedyAgent`, threading the
random source its `act` consumes. -/
def epsilonRun (rewardF : ℕ → ℕ → ℚ) : ℕ → ℕ → EpsilonGreedyAgent →
    RandSrc → List ℕ × EpsilonGreedyAgent × RandSrc
  | 0, _, g, r => ([], g, r)
  | k + 1, t, g, r =>
    let p := g.act r
    let g2 := g.learn p.1 (rewardF t p.1)
    let res := epsilonRun rewardF k (t + 1) g2 p.2
    (p.1 :: res.1, res.2)

/-- Claim C7: an `EpsilonGreedyAgent` with `epsilon = 0` behaves
identically to a `GreedyAgent` on any fixed random source: starting from
the same `Q` / `count` state, for any reward oracle and any number of
steps, the sequence of actions chosen and the `Q` / `count` updates
performed coincide with the plain greedy agent's (the uniform draws of
`random.random()` lie in `[0,1)`, so the `u < 0` exploration branch never
fires). -/
theorem epsilon_zero_equiv (rewardF : ℕ → ℕ → ℚ) (k : ℕ) :
    ∀ (t n : ℕ) (Q : List ℚ) (count : List ℕ) (r : RandSrc),
      (∀ u ∈ r, 0 ≤ u) →
      (epsilonRun rewardF k t ⟨Q, count, 0, n⟩ r).1 =
        (greedyRun rewardF k t ⟨Q, count⟩).1 ∧
      (epsilonRun rewardF k t ⟨Q, count, 0, n⟩ r).2.1.Q =
        (greedyRun rewardF k t ⟨Q, count⟩).2.Q ∧
      (epsilonRun rewardF k t ⟨Q, count, 0, n⟩ r).2.1.action_count =
        (greedyRun rewardF k t ⟨Q, count⟩).2.action_count := by
  induction k with
  | zero => intro t n Q count r _; exact ⟨rfl, rfl, rfl⟩
  | succ k ih =>
    intro t n Q count r hr
    have hu : ¬ ((r.headD 0) < (0 : ℚ)) := by
      cases r with
      | nil => simp
      | cons x xs =>
        simp only [List.headD_cons]
        exact not_lt.mpr (hr x (List.mem_cons_self x xs))
    have hact : (EpsilonGreedyAgent.mk Q count 0 n).act r =
        (reduceSelect Q, r.tail) := by
      unfold EpsilonGreedyAgent.act draw
      simp only [if_neg hu]
    have hr2 : ∀ u ∈ r.tail, 0 ≤ u :=
      fun u hu2 => hr u (List.mem_of_mem_tail hu2)
    have hih := ih (t + 1) n (learnQ Q count (reduceSelect Q)
        (rewardF t (reduceSelect Q))).1
      (learnQ Q count (reduceSelect Q) (rewardF t (reduceSelect Q))).2
      r.tail hr2
    simp only [epsilonRun, greedyRun, hact, EpsilonGreedyAgent.learn,
      GreedyAgent.learn, GreedyAgent.act]
    exact ⟨by rw [hih.1], hih.2.1, hih.2.2⟩

/-- Concrete instance of `epsilon_zero_equiv`: two steps of a two-armed
agent with all-zero estimates, constant reward 1 and the random stream
`[0, 0]`. -/
theorem epsilon_zero_equiv_witness :
    (epsilonRun (fun _ _ => (1 : ℚ)) 2 0 ⟨[0, 0], [1, 1], 0, 2⟩ [0, 0]).1 =
      (greedyRun (fun _ _ => (1 : ℚ)) 2 0 ⟨[0, 0], [1, 1]⟩).1 := by
  have h := epsilon_zero_equiv (fun _ _ => (1 : ℚ)) 2 0 2 [0, 0] [1, 1]
    [0, 0] (by intro u hu; simp only [List.mem_cons,
      List.not_mem_nil, or_false] at hu; rcases hu with h | h <;>
      (rw [h]))
  exact h.1

/-! ### The evaluation harness: one episode reproduces the rewards -/

theorem agentStep_recurrence {σ : Type} (ops : AgentOps σ) (env : Bandit)
    (e step : ℕ) (ag : σ) (row trace : List ℚ) (r : RandSrc)
    (ag2 : σ) (row2 trace2 : List ℚ) (r2 : RandSrc)
    (h : agentStep ops env e step ag row trace r =
      some (ag2, row2, trace2, r2)) :
    ∃ w, trace2 = trace ++ [w] ∧
      row2 = row.set step
        (row.getD step 0 + 1 / ((e : ℚ) + 1) * (w - row.getD step 0)) := by
  simp only [agentStep] at h
  rcases hb : Bandit.actR env ((ops.act ag r).1 : ℤ) (ops.act ag r).2 with
    _ | ⟨w, r3⟩
  · rw [hb] at h
    simp at h
  · rw [hb] at h
    simp only [Option.some.injEq, Prod.mk.injEq] at h
    obtain ⟨-, hrow, htr, -⟩ := h
    exact ⟨w, htr.symm, hrow.symm⟩

theorem set_append_len {α : Type} (l1 l2 : List α) (x : α) :
    (l1 ++ l2).set l1.length x = l1 ++ l2.set 0 x := by
  rw [List.set_append]
  simp

theorem agentStep_zero_inv {σ : Type} (ops : AgentOps σ) (env : Bandit)
    (s k : ℕ) (ag : σ) (row tr : List ℚ) (r : RandSrc)
    (ag2 : σ) (row2 tr2 : List ℚ) (r2 : RandSrc)
    (hrow : row = tr ++ List.replicate (k + 1) 0) (hlen : tr.length = s)
    (h : agentStep ops env 0 s ag row tr r = some (ag2, row2, tr2, r2)) :
    row2 = tr2 ++ List.replicate k 0 ∧ tr2.length = s + 1 := by
  obtain ⟨w, htr, hrw⟩ :=
    agentStep_recurrence ops env 0 s ag row tr r ag2 row2 tr2 r2 h
  have hval : row.getD s 0 + 1 / (((0 : ℕ) : ℚ) + 1) * (w - row.getD s 0)
      = w := by
    norm_num
  rw [hval] at hrw
  subst hlen
  rw [hrow, set_append_len, List.replicate_succ, List.set_cons_zero] at hrw
  constructor
  · rw [hrw, htr, List.append_cons]
  · rw [htr, List.length_append, List.length_singleton]

theorem stepAgents_zero_inv {σ : Type} (ops : AgentOps σ) (env : Bandit)
    (s k : ℕ) :
    ∀ (prs : List (σ × List ℚ × List ℚ)) (r : RandSrc)
      (prs2 : List (σ × List ℚ × List ℚ)) (r2 : RandSrc),
      (∀ x ∈ prs, x.2.1 = x.2.2 ++ List.replicate (k + 1) 0 ∧
        x.2.2.length = s) →
      stepAgents ops env 0 s prs r = some (prs2, r2) →
      ∀ x ∈ prs2, x.2.1 = x.2.2 ++ List.replicate k 0 ∧
        x.2.2.length = s + 1 := by
  intro prs
  induction prs with
  | nil =>
    intro r prs2 r2 _ h
    simp only [stepAgents, Option.some.injEq, Prod.mk.injEq] at h
    obtain ⟨h1, -⟩ := h
    intro x hx
    rw [← h1] at hx
    cases hx
  | cons hd tl ih =>
    intro r prs2 r2 hinv h
    obtain ⟨ag, row, tr⟩ := hd
    simp only [stepAgents] at h
    split at h
    · simp at h
    · next ag2 row2 tr2 r3 heq =>
      split at h
      · simp at h
      · next rest2 r4 heq2 =>
        simp only [Option.some.injEq, Prod.mk.injEq] at h
        obtain ⟨hp, -⟩ := h
        have hmem := hinv (ag, row, tr) (List.mem_cons_self _ _)
        have hhd := agentStep_zero_inv ops env s k ag row tr r ag2 row2 tr2 r3
          hmem.1 hmem.2 heq
        have htl := ih r3 rest2 r4
          (fun x hx => hinv x (List.mem_cons_of_mem _ hx)) heq2
        intro x hx
        rw [← hp] at hx
        rcases List.mem_cons.mp hx with hx | hx
        · subst hx
          exact hhd
        · exact htl x hx

theorem runSteps_zero_inv {σ : Type} (ops : AgentOps σ) (env : Bandit) :
    ∀ (k s : ℕ) (prs : List (σ × List ℚ × List ℚ)) (r : RandSrc)
      (prs2 : List (σ × List ℚ × List ℚ)) (r2 : RandSrc),
      (∀ x ∈ prs, x.2.1 = x.2.2 ++ List.replicate k 0 ∧ x.2.2.length = s) →
      runSteps ops env 0 k s prs r = some (prs2, r2) →
      ∀ x ∈ prs2, x.2.1 = x.2.2 ∧ x.2.2.length = s + k := by
  intro k
  induction k with
  | zero =>
    intro s prs r prs2 r2 hinv h
    simp only [runSteps, Option.some.injEq, Prod.mk.injEq] at h
    obtain ⟨h1, -⟩ := h
    intro x hx
    rw [← h1] at hx
    have hi := hinv x hx
    simpa using hi
  | succ k ih =>
    intro s prs r prs2 r2 hinv h
    simp only [runSteps] at h
    split at h
    · simp at h
    · next prsm rm heq =>
      have hmid := stepAgents_zero_inv ops env s k prs r prsm rm hinv heq
      have hfin := ih (s + 1) prsm rm prs2 r2 hmid h
      intro x hx
      obtain ⟨h1, h2⟩ := hfin x hx
      exact ⟨h1, by omega⟩

/-- Claim C6: with `num_episodes = 1` the accumulated average array equals,
entry for entry, the rewards the agents actually received: each final row
`avg[i]` is exactly the ghost trace of rewards agent `i` received, so
`avg[i][t]` is the reward at step `t` (first conjunct); and each update
inside episode `e` follows the online mean recurrence
`avg[i][t] ← avg[i][t] + (reward − avg[i][t]) / (e + 1)` (second
conjunct). -/
theorem evaluate_one_episode :
    (∀ (σ : Type) (tb : Testbed σ) (L : ℕ) (r : RandSrc)
      (rows traces : List (List ℚ)),
      tb.evaluateT 1 L r = some (rows, traces) → rows = traces) ∧
    (∀ (σ : Type) (ops : AgentOps σ) (env : Bandit) (e step : ℕ) (ag : σ)
      (row trace : List ℚ) (r : RandSrc) (ag2 : σ) (row2 trace2 : List ℚ)
      (r2 : RandSrc),
      agentStep ops env e step ag row trace r = some (ag2, row2, trace2, r2) →
      ∃ w, trace2 = trace ++ [w] ∧
        row2 = row.set step
          (row.getD step 0 + 1 / ((e : ℚ) + 1) * (w - row.getD step 0))) := by
  constructor
  · intro σ tb L r rows traces h
    simp only [Testbed.evaluateT] at h
    rw [Option.map_eq_some'] at h
    obtain ⟨t, ht, hpair⟩ := h
    rw [show (1 : ℕ) = 0 + 1 from rfl] at ht
    simp only [runEpisodes] at ht
    split at ht
    · simp at ht
    · next prs r2 heq =>
      simp only [runEpisodes, Option.some.injEq] at ht
      have hstart : ∀ x ∈ ((tb.agent_fns.map
            (fun f => f (tb.environment_fn r).1.rewards.length)).zip
            ((tb.agent_fns.map (fun _ => List.replicate L (0 : ℚ))).map
              (fun row => (row, ([] : List ℚ))))),
          x.2.1 = x.2.2 ++ List.replicate L 0 ∧ x.2.2.length = 0 := by
        intro x hx
        obtain ⟨xa, xb⟩ := x
        have hb := (List.of_mem_zip hx).2
        rw [List.mem_map] at hb
        obtain ⟨row, hrow, hxb⟩ := hb
        rw [List.mem_map] at hrow
        obtain ⟨-, -, hrepl⟩ := hrow
        rw [← hxb, ← hrepl]
        exact ⟨rfl, rfl⟩
      have hfin := runSteps_zero_inv tb.ops (tb.environment_fn r).1 L 0
        _ (tb.environment_fn r).2 prs r2 hstart heq
      rw [← ht] at hpair
      simp only [Prod.mk.injEq] at hpair
      obtain ⟨hrows, htraces⟩ := hpair
      rw [← hrows, ← htraces]
      exact List.map_congr_left (fun x hx => (hfin x hx).1)
  · intro σ ops env e step ag row trace r ag2 row2 trace2 r2 h
    exact agentStep_recurrence ops env e step ag row trace r ag2 row2 trace2
      r2 h

/-- Concrete instance of `evaluate_one_episode`: a single episode of length
one on the zero-noise one-armed bandit with mean 2 produces the average
array `[[2]]`, equal to the recorded reward trace `[[2]]`. -/
theorem evaluate_one_episode_witness :
    (Testbed.mk (fun r => (Bandit.mk [(2 : ℚ)] 0, r))
      [fun n => GreedyAgent.init n] greedyOps).evaluateT 1 1 [] =
      some ([[(2 : ℚ)]], [[(2 : ℚ)]]) ∧
    ([[(2 : ℚ)]] : List (List ℚ)) = [[(2 : ℚ)]] := by
  have hev : (Testbed.mk (fun r => (Bandit.mk [(2 : ℚ)] 0, r))
      [fun n => GreedyAgent.init n] greedyOps).evaluateT 1 1 [] =
      some ([[(2 : ℚ)]], [[(2 : ℚ)]]) := by
    rw [show (1 : ℕ) = 0 + 1 from rfl]
    simp [Testbed.evaluateT, runEpisodes, runSteps, stepAgents, agentStep,
      greedyOps, GreedyAgent.init, GreedyAgent.act, GreedyAgent.learn,
      reduceSelect, learnQ, Bandit.actR, pyIndex, draw]
  exact ⟨hev, evaluate_one_episode.1 GreedyAgent _ 1 [] _ _ hev⟩

/-! ### The harness performs no action-space size validation -/

theorem pyIndex_nat_some (l : List ℚ) (a : ℕ) (ha : a < l.length) :
    pyIndex l (a : ℤ) = some (l.getD a 0) := by
  unfold pyIndex
  have h1 : ¬ ((a : ℤ) < 0) := by omega
  have h2 : 0 ≤ (a : ℤ) ∧ (a : ℤ) < (l.length : ℤ) := ⟨by omega, by omega⟩
  simp only [if_neg h1, if_pos h2, Int.toNat_natCast]
  rw [List.get?_eq_getElem?, List.getElem?_eq_getElem ha,
    List.getD_eq_getElem?_getD, List.getElem?_eq_getElem ha]
  rfl

theorem greedy_act_lt (g : GreedyAgent) (h : 1 ≤ g.Q.length) :
    g.act < g.Q.length := by
  have hs := (rangeFoldSel_spec g.Q g.Q.length h).1
  show reduceSelect g.Q < g.Q.length
  rw [reduceSelect_eq_rangeFoldSel]
  exact hs

theorem greedy_agentStep_eq (env : Bandit) (e step : ℕ) (g : GreedyAgent)
    (row tr : List ℚ) (r : RandSrc) (m : ℚ)
    (hm : pyIndex env.rewards (g.act : ℤ) = some m) :
    agentStep greedyOps env e step g row tr r =
      some (g.learn g.act (m + env.noise_std * (draw r).1),
        row.set step (row.getD step 0 + 1 / ((e : ℚ) + 1) *
          ((m + env.noise_std * (draw r).1) - row.getD step 0)),
        tr ++ [m + env.noise_std * (draw r).1], (draw r).2) := by
  simp only [agentStep, greedyOps, Bandit.actR]
  rw [hm]

theorem greedy_stepAgents_some (env : Bandit) (e step : ℕ) :
    ∀ (prs : List (GreedyAgent × List ℚ × List ℚ)) (r : RandSrc),
      (∀ x ∈ prs, 1 ≤ x.1.Q.length ∧ x.1.Q.length ≤ env.rewards.length) →
      ∃ prs2 r2, stepAgents greedyOps env e step prs r = some (prs2, r2) ∧
        ∀ x ∈ prs2, 1 ≤ x.1.Q.length ∧ x.1.Q.length ≤ env.rewards.length := by
  intro prs
  induction prs with
  | nil =>
    intro r _
    exact ⟨[], r, rfl, by intro x hx; cases hx⟩
  | cons hd tl ih =>
    intro r hinv
    obtain ⟨g, row, tr⟩ := hd
    have hg := hinv (g, row, tr) (List.mem_cons_self _ _)
    have hact : g.act < env.rewards.length :=
      lt_of_lt_of_le (greedy_act_lt g hg.1) hg.2
    have hm := pyIndex_nat_some env.rewards g.act hact
    obtain ⟨prs2, r2, hstep, hinv2⟩ := ih (draw r).2
      (fun x hx => hinv x (List.mem_cons_of_mem _ hx))
    refine ⟨(g.learn g.act (env.rewards.getD g.act 0 +
        env.noise_std * (draw r).1),
      row.set step (row.getD step 0 + 1 / ((e : ℚ) + 1) *
        ((env.rewards.getD g.act 0 + env.noise_std * (draw r).1) -
          row.getD step 0)),
      tr ++ [env.rewards.getD g.act 0 + env.noise_std * (draw r).1]) :: prs2,
      r2, ?_, ?_⟩
    · simp only [stepAgents, greedy_agentStep_eq env e step g row tr r _ hm,
        hstep]
    · intro x hx
      rcases List.mem_cons.mp hx with hx | hx
      · subst hx
        constructor
        · rw [learn_Q_length]
          exact hg.1
        · rw [learn_Q_length]
          exact hg.2
      · exact hinv2 x hx

theorem greedy_runSteps_some (env : Bandit) (e : ℕ) :
    ∀ (k step : ℕ) (prs : List (GreedyAgent × List ℚ × List ℚ)) (r : RandSrc),
      (∀ x ∈ prs, 1 ≤ x.1.Q.length ∧ x.1.Q.length ≤ env.rewards.length) →
      ∃ prs2 r2, runSteps greedyOps env e k step prs r = some (prs2, r2) := by
  intro k
  induction k with
  | zero =>
    intro step prs r _
    exact ⟨prs, r, rfl⟩
  | succ k ih =>
    intro step prs r hinv
    obtain ⟨prsm, rm, hstep, hinvm⟩ := greedy_stepAgents_some env e step prs
      r hinv
    obtain ⟨prs2, r2, hrest⟩ := ih (step + 1) prsm rm hinvm
    refine ⟨prs2, r2, ?_⟩
    simp only [runSteps]
    rw [hstep]
    exact hrest

theorem greedy_runEpisodes_some (tb : Testbed GreedyAgent)
    (hops : tb.ops = greedyOps)
    (hfact : ∀ (r : RandSrc) (f : ℕ → GreedyAgent), f ∈ tb.agent_fns →
      1 ≤ (f (tb.environment_fn r).1.rewards.length).Q.length ∧
      (f (tb.environment_fn r).1.rewards.length).Q.length ≤
        (tb.environment_fn r).1.rewards.length) (L : ℕ) :
    ∀ (ne e : ℕ) (rows traces : List (List ℚ)) (r : RandSrc),
      ∃ rows2 traces2 r2,
        runEpisodes tb L ne e rows traces r = some (rows2, traces2, r2) := by
  intro ne
  induction ne with
  | zero =>
    intro e rows traces r
    exact ⟨rows, traces, r, rfl⟩
  | succ ne ih =>
    intro e rows traces r
    have hstart : ∀ x ∈ ((tb.agent_fns.map
          (fun f => f (tb.environment_fn r).1.rewards.length)).zip
          (rows.map (fun row => (row, ([] : List ℚ))))),
        1 ≤ x.1.Q.length ∧
        x.1.Q.length ≤ (tb.environment_fn r).1.rewards.length := by
      intro x hx
      obtain ⟨xa, xb⟩ := x
      have hmem := (List.of_mem_zip hx).1
      rw [List.mem_map] at hmem
      obtain ⟨f, hf, hfa⟩ := hmem
      rw [← hfa]
      exact hfact r f hf
    obtain ⟨prs, r2, hrs⟩ := greedy_runSteps_some (tb.environment_fn r).1 e
      L 0 _ (tb.environment_fn r).2 hstart
    obtain ⟨rows2, traces2, r3, hrest⟩ := ih (e + 1)
      (prs.map (fun t => t.2.1)) (prs.map (fun t => t.2.2)) r2
    refine ⟨rows2, traces2, r3, ?_⟩
    simp only [runEpisodes]
    rw [hops, hrs]
    exact hrest

/-- Claim C4 (amended): `Testbed.evaluate` performs NO action-space size
validation and raises no CONFIGURATION_MISMATCH error: whenever the agents
produced by the factories act within the environment's range (in
particular greedy agents of any positive size at most the action count —
e.g. an agent sized 3 against action count 5), every episode and every
step executes normally and the evaluation returns the average array. -/
theorem testbed_no_mismatch_check (tb : Testbed GreedyAgent)
    (hops : tb.ops = greedyOps)
    (hfact : ∀ (r : RandSrc) (f : ℕ → GreedyAgent), f ∈ tb.agent_fns →
      1 ≤ (f (tb.environment_fn r).1.rewards.length).Q.length ∧
      (f (tb.environment_fn r).1.rewards.length).Q.length ≤
        (tb.environment_fn r).1.rewards.length)
    (ne L : ℕ) (r : RandSrc) :
    (tb.evaluate ne L r).isSome = true := by
  obtain ⟨rows2, traces2, r2, h⟩ := greedy_runEpisodes_some tb hops hfact L
    ne 0 (tb.agent_fns.map (fun _ => List.replicate L (0 : ℚ))) [] r
  simp only [Testbed.evaluate, h, Option.map_some', Option.isSome_some]

/-- The claim as stated is false at a concrete input: a greedy agent sized
3 against an environment with action count 5 does not make the harness
fail before the first episode — `evaluate` runs the episode step (the
agent picks action 2, receiving reward 3) and returns the average array
`[[3]]`, raising nothing. -/
theorem config_mismatch_cex :
    (Testbed.mk (fun r => (Bandit.mk [(1 : ℚ), 2, 3, 4, 5] 0, r))
      [fun _ => GreedyAgent.init 3] greedyOps).evaluate 1 1 [] =
      some [[(3 : ℚ)]] ∧
    ¬ (Testbed.mk (fun r => (Bandit.mk [(1 : ℚ), 2, 3, 4, 5] 0, r))
      [fun _ => GreedyAgent.init 3] greedyOps).evaluate 1 1 [] = none := by
  have h : (Testbed.mk (fun r => (Bandit.mk [(1 : ℚ), 2, 3, 4, 5] 0, r))
      [fun _ => GreedyAgent.init 3] greedyOps).evaluate 1 1 [] =
      some [[(3 : ℚ)]] := by
    have hsel : reduceSelect [(0 : ℚ), 0, 0] = 2 := by
      norm_num [reduceSelect, List.range_succ]
    rw [show (1 : ℕ) = 0 + 1 from rfl]
    simp [Testbed.evaluate, runEpisodes, runSteps, stepAgents, agentStep,
      greedyOps, GreedyAgent.init, GreedyAgent.act, GreedyAgent.learn,
      hsel, learnQ, Bandit.actR, pyIndex, draw, List.replicate]
  exact ⟨h, by rw [h]; simp⟩

/-- Concrete instance of `testbed_no_mismatch_check`: the mismatched
configuration (agent sized 3, action count 5) evaluates two episodes of
length two without any failure. -/
theorem testbed_no_mismatch_check_witness :
    ((Testbed.mk (fun r => (Bandit.mk [(1 : ℚ), 2, 3, 4, 5] 0, r))
      [fun _ => GreedyAgent.init 3] greedyOps).evaluate 2 2 []).isSome =
      true := by
  apply testbed_no_mismatch_check
  · rfl
  · intro r f hf
    simp only [List.mem_singleton] at hf
    subst hf
    simp [GreedyAgent.init]
